import Mathlib

/-!
Shallow embedding of the note-commitment-tree node codec and the chain
benchmark command of the ironfish repository.

The codec (`NodeEncoding.serialize`, `NodeEncoding.deserialize`,
`NodeEncoding.getSize`) is translated from
src/ironfish-cli/src/commands/chain/benchmark.ts (second document: the
merkletree nodes module).  Buffers are modelled as `List Nat` of byte
values; the bufio writer/reader primitives (`writeHash`, `writeU8`,
`writeU32`, `readHash`, `readU8`, `readU32`, `left`) are modelled by list
concatenation, indexed access with explicit bounds checks, and
little-endian 32-bit arithmetic, which is the byte order bufio uses for
`writeU32`/`readU32`.
-/

namespace Ironfish

/-- Side of a tree node, mirroring the `Side` enum imported from the
merkletree module. -/
inductive Side where
  | Left
  | Right
deriving DecidableEq

/-- Fields of a left node: left nodes have a parent index and may have a
right index. -/
structure LeftNodeValue where
  hashOfSibling : List Nat
  parentIndex : Nat
  rightIndex : Option Nat
deriving DecidableEq

/-- Fields of a right node: right nodes have a left index. -/
structure RightNodeValue where
  hashOfSibling : List Nat
  leftIndex : Nat
deriving DecidableEq

/-- A node value is the tagged union of the left and the right shape,
mirroring `NodeValue<H> = LeftNodeValue<H> | RightNodeValue<H>` with the
`side` field as the discriminant. -/
inductive NodeValue where
  | left : LeftNodeValue → NodeValue
  | right : RightNodeValue → NodeValue
deriving DecidableEq

/-- The `side` discriminant of a node value. -/
def NodeValue.side : NodeValue → Side
  | .left _ => .Left
  | .right _ => .Right

/-- The `hashOfSibling` field, common to both shapes. -/
def NodeValue.hashOfSibling : NodeValue → List Nat
  | .left v => v.hashOfSibling
  | .right v => v.hashOfSibling

/-- The first serialized index: `parentIndex` for a left node,
`leftIndex` for a right node. -/
def NodeValue.otherIndex : NodeValue → Nat
  | .left v => v.parentIndex
  | .right v => v.leftIndex

/-- Whether the node is a left node. -/
def NodeValue.isLeft : NodeValue → Bool
  | .left _ => true
  | .right _ => false

/-- Whether the node carries a right index (`value.side === Side.Left &&
value.rightIndex !== undefined` in the source). -/
def NodeValue.hasRightIndex : NodeValue → Bool
  | .left v => v.rightIndex.isSome
  | .right _ => false

/-- The optional `rightIndex` field: defined only on a left node. -/
def NodeValue.rightIndexField : NodeValue → Option Nat
  | .left v => v.rightIndex
  | .right _ => none

/-- Validity of a node value as a serializable TypeScript value: the
sibling hash is a 32-byte buffer (bufio `writeHash` requires exactly 32
bytes, and buffer bytes are below 256) and every index fits in an
unsigned 32-bit integer (bufio `writeU32` requires this). -/
def NodeValue.Valid : NodeValue → Prop
  | .left v =>
      v.hashOfSibling.length = 32 ∧ (∀ x ∈ v.hashOfSibling, x < 256) ∧
      v.parentIndex < 4294967296 ∧
      (match v.rightIndex with
       | some r => r < 4294967296
       | none => True)
  | .right v =>
      v.hashOfSibling.length = 32 ∧ (∀ x ∈ v.hashOfSibling, x < 256) ∧
      v.leftIndex < 4294967296

/-- The four bytes written by bufio `writeU32`: little-endian, least
significant byte first. -/
def writeU32 (n : Nat) : List Nat :=
  [n % 256, n / 256 % 256, n / 65536 % 256, n / 16777216 % 256]

/-- The value read by bufio `readU32` at byte offset `off` of a buffer:
little-endian, least significant byte first. -/
def readU32 (b : List Nat) (off : Nat) : Nat :=
  b.getD off 0 + b.getD (off + 1) 0 * 256 +
    b.getD (off + 2) 0 * 65536 + b.getD (off + 3) 0 * 16777216

namespace NodeEncoding

/-- Translation of `NodeEncoding.serialize`: write the 32-byte sibling
hash, then a tag byte (0 for a left node, 1 for a right node), then the
4-byte index (`parentIndex` or `leftIndex`), and, only for a left node
whose `rightIndex` is defined, a second 4-byte index. -/
def serialize : NodeValue → List Nat
  | .left v =>
      v.hashOfSibling ++ [0] ++ writeU32 v.parentIndex ++
        (match v.rightIndex with
         | some r => writeU32 r
         | none => [])
  | .right v =>
      v.hashOfSibling ++ [1] ++ writeU32 v.leftIndex

/-- The error raised by a bufio reader on an out-of-bounds read; the
specification groups decode failures under the name FormatError. -/
inductive FormatError where
  | outOfBoundsRead
deriving DecidableEq

/-- Translation of `NodeEncoding.deserialize`: `readHash` (32 bytes),
`readU8` (the side tag, 0 meaning Left and anything else Right) and the
first `readU32` each raise the same out-of-bounds error when the buffer
is shorter than 37 bytes, so the three bounds checks collapse into one;
then, for a Left tag, `reader.left() > 0` decides whether a second
`readU32` is attempted for the optional right index. -/
def deserialize (buffer : List Nat) : Except FormatError NodeValue :=
  if 37 ≤ buffer.length then
    let hashOfSibling := buffer.take 32
    let sideNumber := buffer.getD 32 0
    let side := if sideNumber = 0 then Side.Left else Side.Right
    let otherIndex := readU32 buffer 33
    if side = Side.Left then
      if 0 < buffer.length - 37 then
        if 41 ≤ buffer.length then
          .ok (.left ⟨hashOfSibling, otherIndex, some (readU32 buffer 37)⟩)
        else
          .error .outOfBoundsRead
      else
        .ok (.left ⟨hashOfSibling, otherIndex, none⟩)
    else
      .ok (.right ⟨hashOfSibling, otherIndex⟩)
  else
    .error .outOfBoundsRead

/-- Translation of `NodeEncoding.getSize`: 1 byte for the side, 32 for
the hash, 4 for the first index, and 4 more exactly when the value is a
left node whose `rightIndex` is defined. -/
def getSize (value : NodeValue) : Nat :=
  1 + 32 + 4 + (if value.isLeft && value.hasRightIndex then 4 else 0)

end NodeEncoding

/-- A 38-byte buffer: a 32-byte hash, the Right tag byte 1, a 4-byte
index, and one trailing garbage byte.  Its length matches neither valid
encoded size, yet `deserialize` accepts it. -/
def c2buf : List Nat :=
  List.replicate 32 0 ++ (1 :: ([0, 0, 0, 0] ++ [99]))

/-- A 41-byte Left-tagged buffer used to instantiate deserialization
facts: 32 hash bytes, tag 0, parent index 1, right index 2. -/
def c6buf : List Nat :=
  List.replicate 32 5 ++ (0 :: ([1, 0, 0, 0] ++ [2, 0, 0, 0]))

/-- A 37-byte buffer whose side-tag byte is 2, a value that is neither
of the two tags `serialize` ever writes. -/
def c8buf : List Nat :=
  List.replicate 32 6 ++ (2 :: [7, 0, 0, 0])

/-- A block header, reduced to the two fields the benchmark command
reads: the block sequence number and the note-commitment tree size
recorded after the block. -/
structure BlockHeader where
  sequence : Nat
  noteCommitmentSize : Nat
deriving DecidableEq

/-- A block, reduced to its header. -/
structure Block where
  header : BlockHeader
deriving DecidableEq

/-- The default block used by the total accessors below. -/
def defaultBlock : Block := ⟨⟨0, 0⟩⟩

/-- Well-formedness of a reference chain, given as the list of its
blocks in chain order: blocks are dense and ordered, the block at
position i carrying sequence i + 1 (the genesis block, first in the
list, has sequence 1). -/
def ChainWF (c : List Block) : Prop :=
  ∀ i, i < c.length → (c.getD i defaultBlock).header.sequence = i + 1

/-- The head of the chain: its most recently added block, the last of
the list. -/
def chainHead (c : List Block) : BlockHeader :=
  (c.getD (c.length - 1) defaultBlock).header

/-- The header of the block at position i of the chain list. -/
def headerAt (c : List Block) (i : Nat) : BlockHeader :=
  (c.getD i defaultBlock).header

/-- Modelled from the spec: `getHeaderAtSequence` of the chain (the
chain itself is outside this fragment) returns the header of the chain
block bearing the given sequence number, when one exists. -/
def getHeaderAtSequence (c : List Block) (s : Nat) : Option BlockHeader :=
  (c.find? (fun b => b.header.sequence == s)).map (fun b => b.header)

/-- Modelled from the spec: `iterateTo` from the genesis block to a
final header yields the contiguous range of historical blocks from the
start of the chain through the block bearing that header. -/
def iterateTo (c : List Block) (final : BlockHeader) : List Block :=
  c.takeWhile (fun b => b.header.sequence ≤ final.sequence)

/-- The sequence numbers of a list of blocks, in order. -/
def sequencesOf (l : List Block) : List Nat :=
  l.map (fun b => b.header.sequence)

/-- Observable external effects of the benchmark command, in order. -/
inductive Event where
  | logMessage (msg : String)
  | exitWith (code : Nat)
  | addBlock (b : Block)
  | rehashTree
  | logBenchHash (h : List Nat)
  | logRealHash (h : List Nat)
  | logTreeSize (n : Nat)
  | assertionFailed
deriving DecidableEq

/-- Whether an event touches the benchmark node state (replaying a
block into it or rehashing its tree). -/
def mutatesBenchTree : Event → Bool
  | .addBlock _ => true
  | .rehashTree => true
  | _ => false

/-- Whether a trace contains any event touching the benchmark node. -/
def traceMutates (t : List Event) : Bool :=
  t.any mutatesBenchTree

/-- Modelled from the spec: the note-commitment tree operations the
benchmark consumes (`rootHash`, `pastRoot`, `size`), which live outside
this fragment, as abstract deterministic functions.  The root hash and
size of the freshly initialized benchmark tree are functions of the
exact list of blocks replayed into it; `pastRoot` is a function of the
reference chain and the requested past size. -/
structure TreeModel where
  rootHash : List Block → List Nat
  pastRoot : List Block → Nat → List Nat
  treeSize : List Block → Nat

/-- The fixed number of blocks the benchmark replays. -/
def blocksToBenchmark : Nat := 500

/-- Translation of the control flow of `BenchmarkChain.start` after the
two nodes are opened, as the sequence of observable events it produces.
An empty reference chain, or a head below sequence 500, logs and exits
before any replay (`this.exit` throws, so nothing follows).  Otherwise
the final header is looked up at sequence 500 (`Assert.isNotNull`
failing is the `assertionFailed` event), every block from genesis
through that header is replayed with `addBlock` into the freshly
initialized benchmark tree, the tree is rehashed, and the command
reports the benchmark root hash, the reference `pastRoot` at the final
header note-commitment size, and the benchmark tree size. -/
def BenchmarkChain.start (M : TreeModel) (chain : List Block) : List Event :=
  if chain.isEmpty then
    [.logMessage "Chain is too corrupt. Delete your DB", .exitWith 0]
  else if (chainHead chain).sequence < blocksToBenchmark then
    [.logMessage "Need to sync more blocks for testing.", .exitWith 0]
  else
    match getHeaderAtSequence chain blocksToBenchmark with
    | none => [.assertionFailed]
    | some finalHeader =>
      let replayed := iterateTo chain finalHeader
      replayed.map Event.addBlock ++
        [.rehashTree,
         .logBenchHash (M.rootHash replayed),
         .logRealHash (M.pastRoot chain finalHeader.noteCommitmentSize),
         .logTreeSize (M.treeSize replayed)]

/-- A concrete well-formed 500-block chain for instantiating the
benchmark theorems; block i carries sequence i + 1. -/
def witChain : List Block :=
  (List.range blocksToBenchmark).map (fun i => ⟨⟨i + 1, i + 1⟩⟩)

/-- A trivial tree model for instantiating the benchmark theorems. -/
def witModel : TreeModel :=
  ⟨fun _ => [], fun _ _ => [], fun _ => 0⟩

/-! Helper lemmas about byte access into concatenated buffers. -/

theorem writeU32_length (n : Nat) : (writeU32 n).length = 4 := rfl

theorem readU32_writeU32 (n : Nat) (h : n < 4294967296) (rest : List Nat) :
    readU32 (writeU32 n ++ rest) 0 = n := by
  simp only [readU32, writeU32, List.cons_append, List.nil_append,
    List.getD_cons_zero, List.getD_cons_succ]
  omega

theorem getD_append_offset (l m : List Nat) (k i : Nat) (hl : l.length = k) :
    (l ++ m).getD (k + i) 0 = m.getD i 0 := by
  rw [List.getD_append_right l m 0 (k + i) (by omega)]
  congr 1
  omega

theorem readU32_append_offset (l m : List Nat) (k : Nat) (hl : l.length = k) :
    readU32 (l ++ m) k = readU32 m 0 := by
  simp only [readU32]
  rw [show k = k + 0 by omega, getD_append_offset l m k 0 hl,
    show k + 0 + 1 = k + 1 by omega, getD_append_offset l m k 1 hl,
    show k + 1 + 1 = k + 2 by omega, getD_append_offset l m k 2 hl,
    show k + 2 + 1 = k + 3 by omega, getD_append_offset l m k 3 hl]

theorem take_prefix (l m : List Nat) (hl : l.length = 32) :
    (l ++ m).take 32 = l := by
  rw [← hl]
  exact List.take_left l m

/-- C1. Round-trip of the node codec: for every valid node value,
deserializing its serialization returns exactly the original value. -/
theorem C1_roundtrip (n : NodeValue) (h : n.Valid) :
    NodeEncoding.deserialize (NodeEncoding.serialize n) = .ok n := by
  match n with
  | .left v =>
    obtain ⟨hlen, _, hpar, hright⟩ := h
    match hr : v.rightIndex with
    | some r =>
      rw [hr] at hright
      have hb : NodeEncoding.serialize (.left v) =
          v.hashOfSibling ++ (0 :: (writeU32 v.parentIndex ++ writeU32 r)) := by
        simp [NodeEncoding.serialize, hr]
      have hblen : (v.hashOfSibling ++
          (0 :: (writeU32 v.parentIndex ++ writeU32 r))).length = 41 := by
        simp [hlen, writeU32]
      have htake : (v.hashOfSibling ++
          (0 :: (writeU32 v.parentIndex ++ writeU32 r))).take 32 = v.hashOfSibling :=
        take_prefix _ _ hlen
      have h32 : (v.hashOfSibling ++
          (0 :: (writeU32 v.parentIndex ++ writeU32 r))).getD 32 0 = 0 := by
        rw [show (32 : Nat) = 32 + 0 from rfl, getD_append_offset _ _ 32 0 hlen]
        rfl
      have h33 : readU32 (v.hashOfSibling ++
          (0 :: (writeU32 v.parentIndex ++ writeU32 r))) 33 = v.parentIndex := by
        rw [show v.hashOfSibling ++ (0 :: (writeU32 v.parentIndex ++ writeU32 r)) =
            (v.hashOfSibling ++ [0]) ++ (writeU32 v.parentIndex ++ writeU32 r) by simp,
          readU32_append_offset _ _ 33 (by simp [hlen])]
        rw [show writeU32 v.parentIndex ++ writeU32 r =
            writeU32 v.parentIndex ++ (writeU32 r ++ []) by simp]
        exact readU32_writeU32 v.parentIndex hpar _
      have h37 : readU32 (v.hashOfSibling ++
          (0 :: (writeU32 v.parentIndex ++ writeU32 r))) 37 = r := by
        rw [show v.hashOfSibling ++ (0 :: (writeU32 v.parentIndex ++ writeU32 r)) =
            ((v.hashOfSibling ++ [0]) ++ writeU32 v.parentIndex) ++ (writeU32 r ++ []) by simp,
          readU32_append_offset _ _ 37 (by simp [hlen, writeU32])]
        exact readU32_writeU32 r hright _
      rw [hb, NodeEncoding.deserialize]
      simp only [hblen, htake, h32, h33, h37]
      simp [← hr]
    | none =>
      have hb : NodeEncoding.serialize (.left v) =
          v.hashOfSibling ++ (0 :: (writeU32 v.parentIndex ++ [])) := by
        simp [NodeEncoding.serialize, hr]
      have hblen : (v.hashOfSibling ++
          (0 :: (writeU32 v.parentIndex ++ []))).length = 37 := by
        simp [hlen, writeU32]
      have htake : (v.hashOfSibling ++
          (0 :: (writeU32 v.parentIndex ++ []))).take 32 = v.hashOfSibling :=
        take_prefix _ _ hlen
      have h32 : (v.hashOfSibling ++
          (0 :: (writeU32 v.parentIndex ++ []))).getD 32 0 = 0 := by
        rw [show (32 : Nat) = 32 + 0 from rfl, getD_append_offset _ _ 32 0 hlen]
        rfl
      have h33 : readU32 (v.hashOfSibling ++
          (0 :: (writeU32 v.parentIndex ++ []))) 33 = v.parentIndex := by
        rw [show v.hashOfSibling ++ (0 :: (writeU32 v.parentIndex ++ [])) =
            (v.hashOfSibling ++ [0]) ++ (writeU32 v.parentIndex ++ []) by simp,
          readU32_append_offset _ _ 33 (by simp [hlen])]
        exact readU32_writeU32 v.parentIndex hpar []
      rw [hb, NodeEncoding.deserialize]
      simp only [hblen, htake, h32, h33]
      simp [← hr]
  | .right v =>
    obtain ⟨hlen, _, hleft⟩ := h
    have hb : NodeEncoding.serialize (.right v) =
        v.hashOfSibling ++ (1 :: (writeU32 v.leftIndex ++ [])) := by
      simp [NodeEncoding.serialize]
    have hblen : (v.hashOfSibling ++
        (1 :: (writeU32 v.leftIndex ++ []))).length = 37 := by
      simp [hlen, writeU32]
    have htake : (v.hashOfSibling ++
        (1 :: (writeU32 v.leftIndex ++ []))).take 32 = v.hashOfSibling :=
      take_prefix _ _ hlen
    have h32 : (v.hashOfSibling ++
        (1 :: (writeU32 v.leftIndex ++ []))).getD 32 0 = 1 := by
      rw [show (32 : Nat) = 32 + 0 from rfl, getD_append_offset _ _ 32 0 hlen]
      rfl
    have h33 : readU32 (v.hashOfSibling ++
        (1 :: (writeU32 v.leftIndex ++ []))) 33 = v.leftIndex := by
      rw [show v.hashOfSibling ++ (1 :: (writeU32 v.leftIndex ++ [])) =
          (v.hashOfSibling ++ [1]) ++ (writeU32 v.leftIndex ++ []) by simp,
        readU32_append_offset _ _ 33 (by simp [hlen])]
      exact readU32_writeU32 v.leftIndex hleft []
    rw [hb, NodeEncoding.deserialize]
    simp only [hblen, htake, h32, h33]
    simp

/-- Witness for C1 at a concrete valid left node carrying a right index. -/
theorem C1_roundtrip_witness :
    NodeEncoding.deserialize (NodeEncoding.serialize
      (.left ⟨List.replicate 32 7, 5, some 9⟩)) =
      .ok (.left ⟨List.replicate 32 7, 5, some 9⟩) :=
  C1_roundtrip (.left ⟨List.replicate 32 7, 5, some 9⟩)
    (by simp only [NodeValue.Valid]; decide)

theorem side_ite_eq_left (c : Prop) [Decidable c] :
    ((if c then Side.Left else Side.Right) = Side.Left) ↔ c := by
  split_ifs with h <;> simp [h]

/-- C2 counterexample: the claim says every buffer whose length matches
neither valid encoded size for its tag makes `deserialize` fail, but the
38-byte Right-tagged buffer `c2buf` (valid Right size is 37) is accepted
and decoded to a right node, the trailing byte silently ignored. -/
theorem C2_counterexample :
    c2buf.length = 38 ∧ c2buf.getD 32 0 = 1 ∧
    NodeEncoding.deserialize c2buf =
      .ok (.right ⟨List.replicate 32 0, 0⟩) :=
  ⟨by decide, by decide, by rfl⟩

/-- C2 amended: `deserialize` fails with a FormatError exactly when the
buffer is too short for the fields it reads, namely when its length is
below 37, or when it carries a Left tag (byte 32 equal to 0) and its
length is strictly between 37 and 41.  Every other buffer is decoded
successfully; in particular trailing bytes beyond the decoded fields are
ignored, so a Right-tagged buffer of any length at least 37, and a
Left-tagged buffer of any length at least 41, are accepted. -/
theorem C2_amended_error_iff (b : List Nat) :
    NodeEncoding.deserialize b = .error .outOfBoundsRead ↔
      (b.length < 37 ∨
        (b.getD 32 0 = 0 ∧ 37 < b.length ∧ b.length < 41)) := by
  rw [NodeEncoding.deserialize]
  simp only [side_ite_eq_left]
  split_ifs with h1 h2 h3 h4
  · constructor
    · intro hc; simp at hc
    · rintro (hlt | ⟨-, h37, h41⟩) <;> omega
  · constructor
    · intro _; exact Or.inr ⟨h2, by omega, by omega⟩
    · intro _; rfl
  · constructor
    · intro hc; simp at hc
    · rintro (hlt | ⟨-, h37, -⟩) <;> omega
  · constructor
    · intro hc; simp at hc
    · rintro (hlt | ⟨h0, -, -⟩)
      · omega
      · exact h2 h0
  · constructor
    · intro _; exact Or.inl (by omega)
    · intro _; rfl

/-- C3. The length of the serialized form is exactly determined by the
two booleans isLeft and hasRightIndex: 41 bytes for a left node carrying
a right index, 37 bytes otherwise (a right node, or a left node without
a right index); no other sizes occur for valid nodes. -/
theorem C3_serialize_length (n : NodeValue) (h : n.Valid) :
    (NodeEncoding.serialize n).length =
      if n.isLeft && n.hasRightIndex then 41 else 37 := by
  match n with
  | .left v =>
    obtain ⟨hlen, -, -, -⟩ := h
    match hr : v.rightIndex with
    | some r =>
      simp [NodeEncoding.serialize, NodeValue.isLeft, NodeValue.hasRightIndex,
        hr, hlen, writeU32]
    | none =>
      simp [NodeEncoding.serialize, NodeValue.isLeft, NodeValue.hasRightIndex,
        hr, hlen, writeU32]
  | .right v =>
    obtain ⟨hlen, -, -⟩ := h
    simp [NodeEncoding.serialize, NodeValue.isLeft, NodeValue.hasRightIndex,
      hlen, writeU32]

/-- Witness for C3 at a concrete valid left node carrying a right index. -/
theorem C3_serialize_length_witness :
    (NodeEncoding.serialize (.left ⟨List.replicate 32 3, 11, some 12⟩)).length =
      if (NodeValue.left ⟨List.replicate 32 3, 11, some 12⟩).isLeft &&
          (NodeValue.left ⟨List.replicate 32 3, 11, some 12⟩).hasRightIndex
        then 41 else 37 :=
  C3_serialize_length (.left ⟨List.replicate 32 3, 11, some 12⟩)
    (by simp only [NodeValue.Valid]; decide)

/-- C4. `getSize` is a pure function of the node shape, returning 41
when the node is a left node carrying a right index and 37 otherwise (so
it depends only on the side and the presence of a right index), and it
equals exactly the byte length of the serialized form. -/
theorem C4_getSize_agrees (n : NodeValue) (h : n.Valid) :
    NodeEncoding.getSize n = (NodeEncoding.serialize n).length ∧
    NodeEncoding.getSize n =
      (if n.isLeft && n.hasRightIndex then 41 else 37) := by
  constructor
  · match n with
    | .left v =>
      obtain ⟨hlen, -, -, -⟩ := h
      match hr : v.rightIndex with
      | some r =>
        simp [NodeEncoding.serialize, NodeEncoding.getSize, NodeValue.isLeft,
          NodeValue.hasRightIndex, hr, hlen, writeU32]
      | none =>
        simp [NodeEncoding.serialize, NodeEncoding.getSize, NodeValue.isLeft,
          NodeValue.hasRightIndex, hr, hlen, writeU32]
    | .right v =>
      obtain ⟨hlen, -, -⟩ := h
      simp [NodeEncoding.serialize, NodeEncoding.getSize, NodeValue.isLeft,
        NodeValue.hasRightIndex, hlen, writeU32]
  · match n with
    | .left v =>
      match hr : v.rightIndex with
      | some r =>
        simp [NodeEncoding.getSize, NodeValue.isLeft, NodeValue.hasRightIndex, hr]
      | none =>
        simp [NodeEncoding.getSize, NodeValue.isLeft, NodeValue.hasRightIndex, hr]
    | .right v =>
      simp [NodeEncoding.getSize, NodeValue.isLeft, NodeValue.hasRightIndex]

/-- Witness for C4 at a concrete valid right node. -/
theorem C4_getSize_agrees_witness :
    NodeEncoding.getSize (.right ⟨List.replicate 32 4, 8⟩) =
      (NodeEncoding.serialize (.right ⟨List.replicate 32 4, 8⟩)).length ∧
    NodeEncoding.getSize (.right ⟨List.replicate 32 4, 8⟩) =
      (if (NodeValue.right ⟨List.replicate 32 4, 8⟩).isLeft &&
          (NodeValue.right ⟨List.replicate 32 4, 8⟩).hasRightIndex
        then 41 else 37) :=
  C4_getSize_agrees (.right ⟨List.replicate 32 4, 8⟩)
    (by simp only [NodeValue.Valid]; decide)

theorem serialize_left_some_assoc0 (v : LeftNodeValue) (r : Nat)
    (hr : v.rightIndex = some r) :
    NodeEncoding.serialize (.left v) =
      v.hashOfSibling ++ (0 :: (writeU32 v.parentIndex ++ writeU32 r)) := by
  simp [NodeEncoding.serialize, hr]

theorem serialize_left_some_assoc1 (v : LeftNodeValue) (r : Nat)
    (hr : v.rightIndex = some r) :
    NodeEncoding.serialize (.left v) =
      (v.hashOfSibling ++ [0]) ++ (writeU32 v.parentIndex ++ writeU32 r) := by
  simp [NodeEncoding.serialize, hr]

theorem serialize_left_some_assoc2 (v : LeftNodeValue) (r : Nat)
    (hr : v.rightIndex = some r) :
    NodeEncoding.serialize (.left v) =
      ((v.hashOfSibling ++ [0]) ++ writeU32 v.parentIndex) ++ (writeU32 r ++ []) := by
  simp [NodeEncoding.serialize, hr]

theorem serialize_left_none_assoc0 (v : LeftNodeValue)
    (hr : v.rightIndex = none) :
    NodeEncoding.serialize (.left v) =
      v.hashOfSibling ++ (0 :: writeU32 v.parentIndex) := by
  simp [NodeEncoding.serialize, hr]

theorem serialize_left_none_assoc1 (v : LeftNodeValue)
    (hr : v.rightIndex = none) :
    NodeEncoding.serialize (.left v) =
      (v.hashOfSibling ++ [0]) ++ (writeU32 v.parentIndex ++ []) := by
  simp [NodeEncoding.serialize, hr]

theorem serialize_right_assoc0 (v : RightNodeValue) :
    NodeEncoding.serialize (.right v) =
      v.hashOfSibling ++ (1 :: writeU32 v.leftIndex) := by
  simp [NodeEncoding.serialize]

theorem serialize_right_assoc1 (v : RightNodeValue) :
    NodeEncoding.serialize (.right v) =
      (v.hashOfSibling ++ [1]) ++ (writeU32 v.leftIndex ++ []) := by
  simp [NodeEncoding.serialize]

theorem getD32_of (l : List Nat) (x : Nat) (m : List Nat)
    (hl : l.length = 32) : (l ++ (x :: m)).getD 32 0 = x := by
  have h := getD_append_offset l (x :: m) 32 0 hl
  simpa using h

theorem read_at (l : List Nat) (n : Nat) (rest : List Nat) (k : Nat)
    (hl : l.length = k) (hn : n < 4294967296) :
    readU32 (l ++ (writeU32 n ++ rest)) k = n := by
  rw [readU32_append_offset l _ k hl]
  exact readU32_writeU32 n hn rest

theorem bytes_at (l : List Nat) (n : Nat) (rest : List Nat) (k k1 k2 k3 : Nat)
    (hl : l.length = k) (hk1 : k1 = k + 1) (hk2 : k2 = k + 2) (hk3 : k3 = k + 3) :
    ((l ++ (writeU32 n ++ rest)).getD k 0 = n % 256) ∧
    ((l ++ (writeU32 n ++ rest)).getD k1 0 = n / 256 % 256) ∧
    ((l ++ (writeU32 n ++ rest)).getD k2 0 = n / 65536 % 256) ∧
    ((l ++ (writeU32 n ++ rest)).getD k3 0 = n / 16777216 % 256) := by
  subst hk1
  subst hk2
  subst hk3
  refine ⟨?_, ?_, ?_, ?_⟩
  · have h := getD_append_offset l (writeU32 n ++ rest) k 0 hl
    simp only [Nat.add_zero] at h
    rw [h]
    simp [writeU32]
  · rw [getD_append_offset l _ k 1 hl]
    simp [writeU32]
  · rw [getD_append_offset l _ k 2 hl]
    simp [writeU32]
  · rw [getD_append_offset l _ k 3 hl]
    simp [writeU32]

/-- C5. Serialization lays out, in order, the 32-byte sibling hash, one
side-tag byte (0 for Left, 1 for Right), the 4-byte first index
(`parentIndex` for Left, `leftIndex` for Right) at offset 33, and a
second 4-byte index at offset 37 present exactly when the node is a left
node whose `rightIndex` is defined (total length 41, else 37). -/
theorem C5_layout (n : NodeValue) (h : n.Valid) :
    (NodeEncoding.serialize n).take 32 = n.hashOfSibling ∧
    (NodeEncoding.serialize n).getD 32 0 = (if n.isLeft then 0 else 1) ∧
    readU32 (NodeEncoding.serialize n) 33 = n.otherIndex ∧
    (n.hasRightIndex = true →
      (NodeEncoding.serialize n).length = 41 ∧
      readU32 (NodeEncoding.serialize n) 37 = n.rightIndexField.getD 0) ∧
    (n.hasRightIndex = false → (NodeEncoding.serialize n).length = 37) := by
  match n with
  | .left v =>
    obtain ⟨hlen, -, hpar, hright⟩ := h
    match hr : v.rightIndex with
    | some r =>
      rw [hr] at hright
      refine ⟨?_, ?_, ?_, ?_, ?_⟩
      · rw [serialize_left_some_assoc0 v r hr]
        exact take_prefix _ _ hlen
      · rw [serialize_left_some_assoc0 v r hr,
          getD32_of v.hashOfSibling 0 (writeU32 v.parentIndex ++ writeU32 r) hlen]
        simp [NodeValue.isLeft]
      · rw [serialize_left_some_assoc1 v r hr,
          read_at (v.hashOfSibling ++ [0]) v.parentIndex (writeU32 r) 33
            (by simp [hlen]) hpar]
        simp [NodeValue.otherIndex]
      · intro _
        constructor
        · rw [serialize_left_some_assoc0 v r hr]
          simp [hlen, writeU32]
        · rw [serialize_left_some_assoc2 v r hr,
            read_at ((v.hashOfSibling ++ [0]) ++ writeU32 v.parentIndex) r [] 37
              (by simp [hlen, writeU32]) hright]
          simp [NodeValue.rightIndexField, hr]
      · intro habs
        simp [NodeValue.hasRightIndex, hr] at habs
    | none =>
      refine ⟨?_, ?_, ?_, ?_, ?_⟩
      · rw [serialize_left_none_assoc0 v hr]
        exact take_prefix _ _ hlen
      · rw [serialize_left_none_assoc0 v hr,
          getD32_of v.hashOfSibling 0 (writeU32 v.parentIndex) hlen]
        simp [NodeValue.isLeft]
      · rw [serialize_left_none_assoc1 v hr,
          read_at (v.hashOfSibling ++ [0]) v.parentIndex [] 33 (by simp [hlen]) hpar]
        simp [NodeValue.otherIndex]
      · intro habs
        simp [NodeValue.hasRightIndex, hr] at habs
      · intro _
        rw [serialize_left_none_assoc0 v hr]
        simp [hlen, writeU32]
  | .right v =>
    obtain ⟨hlen, -, hleft⟩ := h
    refine ⟨?_, ?_, ?_, ?_, ?_⟩
    · rw [serialize_right_assoc0 v]
      exact take_prefix _ _ hlen
    · rw [serialize_right_assoc0 v,
        getD32_of v.hashOfSibling 1 (writeU32 v.leftIndex) hlen]
      simp [NodeValue.isLeft]
    · rw [serialize_right_assoc1 v,
        read_at (v.hashOfSibling ++ [1]) v.leftIndex [] 33 (by simp [hlen]) hleft]
      simp [NodeValue.otherIndex]
    · intro habs
      simp [NodeValue.hasRightIndex] at habs
    · intro _
      rw [serialize_right_assoc0 v]
      simp [hlen, writeU32]

/-- Witness for C5 at a concrete valid left node carrying a right index. -/
theorem C5_layout_witness :
    (NodeEncoding.serialize (.left ⟨List.replicate 32 2, 6, some 10⟩)).take 32 =
      (NodeValue.left ⟨List.replicate 32 2, 6, some 10⟩).hashOfSibling ∧
    (NodeEncoding.serialize (.left ⟨List.replicate 32 2, 6, some 10⟩)).getD 32 0 =
      (if (NodeValue.left ⟨List.replicate 32 2, 6, some 10⟩).isLeft then 0 else 1) ∧
    readU32 (NodeEncoding.serialize (.left ⟨List.replicate 32 2, 6, some 10⟩)) 33 =
      (NodeValue.left ⟨List.replicate 32 2, 6, some 10⟩).otherIndex ∧
    ((NodeValue.left ⟨List.replicate 32 2, 6, some 10⟩).hasRightIndex = true →
      (NodeEncoding.serialize (.left ⟨List.replicate 32 2, 6, some 10⟩)).length = 41 ∧
      readU32 (NodeEncoding.serialize (.left ⟨List.replicate 32 2, 6, some 10⟩)) 37 =
        (NodeValue.left ⟨List.replicate 32 2, 6, some 10⟩).rightIndexField.getD 0) ∧
    ((NodeValue.left ⟨List.replicate 32 2, 6, some 10⟩).hasRightIndex = false →
      (NodeEncoding.serialize (.left ⟨List.replicate 32 2, 6, some 10⟩)).length = 37) :=
  C5_layout (.left ⟨List.replicate 32 2, 6, some 10⟩)
    (by simp only [NodeValue.Valid]; decide)

/-- C6. Whenever `deserialize` returns a left node, the buffer carried
tag byte 0, the fields were read from their layout offsets, and the
optional right index is present if and only if trailing bytes remain
beyond offset 37 — presence is disambiguated purely by buffer length,
with no presence-flag byte. -/
theorem C6_deserialize_reads (b : List Nat) (v : LeftNodeValue)
    (h : NodeEncoding.deserialize b = .ok (.left v)) :
    b.getD 32 0 = 0 ∧
    v.hashOfSibling = b.take 32 ∧
    v.parentIndex = readU32 b 33 ∧
    (v.rightIndex.isSome ↔ 37 < b.length) ∧
    (37 < b.length → v.rightIndex = some (readU32 b 37)) := by
  rw [NodeEncoding.deserialize] at h
  simp only [side_ite_eq_left] at h
  split_ifs at h with h1 h2 h3 h4
  · simp only [Except.ok.injEq, NodeValue.left.injEq] at h
    subst h
    refine ⟨h2, rfl, rfl, ?_, fun _ => rfl⟩
    simp only [Option.isSome_some]
    constructor
    · intro _; omega
    · intro _; trivial
  · simp only [Except.ok.injEq, NodeValue.left.injEq] at h
    subst h
    refine ⟨h2, rfl, rfl, ?_, ?_⟩
    · simp only [Option.isSome_none]
      constructor
      · intro habs; simp at habs
      · intro h37; omega
    · intro h37
      exact absurd h37 (by omega)
  · simp at h

/-- Witness for C6 at the concrete 41-byte Left-tagged buffer `c6buf`. -/
theorem C6_deserialize_reads_witness :
    c6buf.getD 32 0 = 0 ∧
    (⟨List.replicate 32 5, 1, some 2⟩ : LeftNodeValue).hashOfSibling = c6buf.take 32 ∧
    (⟨List.replicate 32 5, 1, some 2⟩ : LeftNodeValue).parentIndex = readU32 c6buf 33 ∧
    ((⟨List.replicate 32 5, 1, some 2⟩ : LeftNodeValue).rightIndex.isSome ↔
      37 < c6buf.length) ∧
    (37 < c6buf.length →
      (⟨List.replicate 32 5, 1, some 2⟩ : LeftNodeValue).rightIndex =
        some (readU32 c6buf 37)) :=
  C6_deserialize_reads c6buf ⟨List.replicate 32 5, 1, some 2⟩ (by rfl)

/-- C8. The side tag is interpreted as 0 meaning Left and anything
nonzero meaning Right: a buffer of valid length whose tag byte is
nonzero (for example a corrupted tag 2) is never rejected and decodes
to a right node, and a zero tag can never decode to a right node. -/
theorem C8_tag_byte (b : List Nat) (h : 37 ≤ b.length) :
    (b.getD 32 0 ≠ 0 →
      NodeEncoding.deserialize b = .ok (.right ⟨b.take 32, readU32 b 33⟩)) ∧
    (b.getD 32 0 = 0 →
      Except.map NodeValue.side (NodeEncoding.deserialize b) ≠
        .ok Side.Right) := by
  constructor
  · intro hne
    rw [NodeEncoding.deserialize, if_pos h]
    simp only [side_ite_eq_left]
    rw [if_neg hne]
  · intro h0
    rw [NodeEncoding.deserialize, if_pos h]
    simp only [side_ite_eq_left]
    rw [if_pos h0]
    split_ifs with h3 h4
    · simp [Except.map, NodeValue.side]
    · simp [Except.map]
    · simp [Except.map, NodeValue.side]

/-- Witness for C8 at the concrete buffer `c8buf`, whose tag byte is 2. -/
theorem C8_tag_byte_witness :
    (c8buf.getD 32 0 ≠ 0 →
      NodeEncoding.deserialize c8buf =
        .ok (.right ⟨c8buf.take 32, readU32 c8buf 33⟩)) ∧
    (c8buf.getD 32 0 = 0 →
      Except.map NodeValue.side (NodeEncoding.deserialize c8buf) ≠
        .ok Side.Right) :=
  C8_tag_byte c8buf (by decide)

/-- C9. Both 4-byte index fields are serialized little-endian: the least
significant byte of the first index sits at offset 33 and of the
optional right index at offset 37, with successively more significant
bytes at the following offsets. -/
theorem C9_little_endian (n : NodeValue) (h : n.Valid) :
    (NodeEncoding.serialize n).getD 33 0 = n.otherIndex % 256 ∧
    (NodeEncoding.serialize n).getD 34 0 = n.otherIndex / 256 % 256 ∧
    (NodeEncoding.serialize n).getD 35 0 = n.otherIndex / 65536 % 256 ∧
    (NodeEncoding.serialize n).getD 36 0 = n.otherIndex / 16777216 % 256 ∧
    (n.hasRightIndex = true →
      (NodeEncoding.serialize n).getD 37 0 = n.rightIndexField.getD 0 % 256 ∧
      (NodeEncoding.serialize n).getD 38 0 = n.rightIndexField.getD 0 / 256 % 256 ∧
      (NodeEncoding.serialize n).getD 39 0 = n.rightIndexField.getD 0 / 65536 % 256 ∧
      (NodeEncoding.serialize n).getD 40 0 =
        n.rightIndexField.getD 0 / 16777216 % 256) := by
  match n with
  | .left v =>
    obtain ⟨hlen, -, -, -⟩ := h
    match hr : v.rightIndex with
    | some r =>
      obtain ⟨b0, b1, b2, b3⟩ :=
        bytes_at (v.hashOfSibling ++ [0]) v.parentIndex (writeU32 r) 33 34 35 36
          (by simp [hlen]) (by norm_num) (by norm_num) (by norm_num)
      obtain ⟨c0, c1, c2, c3⟩ :=
        bytes_at ((v.hashOfSibling ++ [0]) ++ writeU32 v.parentIndex) r [] 37 38 39 40
          (by simp [hlen, writeU32]) (by norm_num) (by norm_num) (by norm_num)
      refine ⟨?_, ?_, ?_, ?_, fun _ => ⟨?_, ?_, ?_, ?_⟩⟩
      · rw [serialize_left_some_assoc1 v r hr, b0]
        simp [NodeValue.otherIndex]
      · rw [serialize_left_some_assoc1 v r hr, b1]
        simp [NodeValue.otherIndex]
      · rw [serialize_left_some_assoc1 v r hr, b2]
        simp [NodeValue.otherIndex]
      · rw [serialize_left_some_assoc1 v r hr, b3]
        simp [NodeValue.otherIndex]
      · rw [serialize_left_some_assoc2 v r hr, c0]
        simp [NodeValue.rightIndexField, hr]
      · rw [serialize_left_some_assoc2 v r hr, c1]
        simp [NodeValue.rightIndexField, hr]
      · rw [serialize_left_some_assoc2 v r hr, c2]
        simp [NodeValue.rightIndexField, hr]
      · rw [serialize_left_some_assoc2 v r hr, c3]
        simp [NodeValue.rightIndexField, hr]
    | none =>
      obtain ⟨b0, b1, b2, b3⟩ :=
        bytes_at (v.hashOfSibling ++ [0]) v.parentIndex [] 33 34 35 36
          (by simp [hlen]) (by norm_num) (by norm_num) (by norm_num)
      refine ⟨?_, ?_, ?_, ?_, fun habs => ?_⟩
      · rw [serialize_left_none_assoc1 v hr, b0]
        simp [NodeValue.otherIndex]
      · rw [serialize_left_none_assoc1 v hr, b1]
        simp [NodeValue.otherIndex]
      · rw [serialize_left_none_assoc1 v hr, b2]
        simp [NodeValue.otherIndex]
      · rw [serialize_left_none_assoc1 v hr, b3]
        simp [NodeValue.otherIndex]
      · simp [NodeValue.hasRightIndex, hr] at habs
  | .right v =>
    obtain ⟨hlen, -, -⟩ := h
    obtain ⟨b0, b1, b2, b3⟩ :=
      bytes_at (v.hashOfSibling ++ [1]) v.leftIndex [] 33 34 35 36
        (by simp [hlen]) (by norm_num) (by norm_num) (by norm_num)
    refine ⟨?_, ?_, ?_, ?_, fun habs => ?_⟩
    · rw [serialize_right_assoc1 v, b0]
      simp [NodeValue.otherIndex]
    · rw [serialize_right_assoc1 v, b1]
      simp [NodeValue.otherIndex]
    · rw [serialize_right_assoc1 v, b2]
      simp [NodeValue.otherIndex]
    · rw [serialize_right_assoc1 v, b3]
      simp [NodeValue.otherIndex]
    · simp [NodeValue.hasRightIndex] at habs

/-- Witness for C9 at a concrete valid left node carrying a right
index whose bytes exercise all four positions. -/
theorem C9_little_endian_witness :
    (NodeEncoding.serialize
        (.left ⟨List.replicate 32 1, 16909060, some 84281096⟩)).getD 33 0 =
      (NodeValue.left ⟨List.replicate 32 1, 16909060, some 84281096⟩).otherIndex % 256 ∧
    (NodeEncoding.serialize
        (.left ⟨List.replicate 32 1, 16909060, some 84281096⟩)).getD 34 0 =
      (NodeValue.left ⟨List.replicate 32 1, 16909060, some 84281096⟩).otherIndex / 256 % 256 ∧
    (NodeEncoding.serialize
        (.left ⟨List.replicate 32 1, 16909060, some 84281096⟩)).getD 35 0 =
      (NodeValue.left ⟨List.replicate 32 1, 16909060, some 84281096⟩).otherIndex / 65536 % 256 ∧
    (NodeEncoding.serialize
        (.left ⟨List.replicate 32 1, 16909060, some 84281096⟩)).getD 36 0 =
      (NodeValue.left ⟨List.replicate 32 1, 16909060, some 84281096⟩).otherIndex / 16777216 % 256 ∧
    ((NodeValue.left ⟨List.replicate 32 1, 16909060, some 84281096⟩).hasRightIndex = true →
      (NodeEncoding.serialize
          (.left ⟨List.replicate 32 1, 16909060, some 84281096⟩)).getD 37 0 =
        (NodeValue.left ⟨List.replicate 32 1, 16909060, some 84281096⟩).rightIndexField.getD 0 % 256 ∧
      (NodeEncoding.serialize
          (.left ⟨List.replicate 32 1, 16909060, some 84281096⟩)).getD 38 0 =
        (NodeValue.left ⟨List.replicate 32 1, 16909060, some 84281096⟩).rightIndexField.getD 0 / 256 % 256 ∧
      (NodeEncoding.serialize
          (.left ⟨List.replicate 32 1, 16909060, some 84281096⟩)).getD 39 0 =
        (NodeValue.left ⟨List.replicate 32 1, 16909060, some 84281096⟩).rightIndexField.getD 0 / 65536 % 256 ∧
      (NodeEncoding.serialize
          (.left ⟨List.replicate 32 1, 16909060, some 84281096⟩)).getD 40 0 =
        (NodeValue.left ⟨List.replicate 32 1, 16909060, some 84281096⟩).rightIndexField.getD 0 / 16777216 % 256) :=
  C9_little_endian (.left ⟨List.replicate 32 1, 16909060, some 84281096⟩)
    (by simp only [NodeValue.Valid]; decide)

/-! Helper lemmas about well-formed chains. -/

theorem chainHead_sequence (c : List Block) (hwf : ChainWF c) (hne : c ≠ []) :
    (chainHead c).sequence = c.length := by
  have hlen : 0 < c.length := List.length_pos.mpr hne
  have h := hwf (c.length - 1) (by omega)
  unfold chainHead
  omega

theorem find_first_at (l : List Block) (p : Block → Bool) (k : Nat)
    (hk : k < l.length)
    (hbefore : ∀ j, j < k → p (l.getD j defaultBlock) = false)
    (hat : p (l.getD k defaultBlock) = true) :
    l.find? p = some (l.getD k defaultBlock) := by
  induction l generalizing k with
  | nil => simp at hk
  | cons a t ih =>
    cases k with
    | zero =>
      have ha : p a = true := by simpa using hat
      rw [List.find?_cons_of_pos t ha]
      simp
    | succ k =>
      have ha : p a = false := by simpa using hbefore 0 (Nat.succ_pos k)
      rw [List.find?_cons_of_neg t (by simp [ha])]
      have ht := ih k (by simpa using hk)
        (fun j hj => by simpa using hbefore (j + 1) (by omega))
        (by simpa using hat)
      simpa using ht

theorem getHeaderAtSequence_wf (c : List Block) (hwf : ChainWF c) (s : Nat)
    (h1 : 1 ≤ s) (h2 : s ≤ c.length) :
    getHeaderAtSequence c s = some (headerAt c (s - 1)) := by
  have hb : ∀ j, j < s - 1 →
      ((c.getD j defaultBlock).header.sequence == s) = false := by
    intro j hj
    have h := hwf j (by omega)
    rw [h]
    simp only [beq_eq_false_iff_ne, ne_eq]
    omega
  have ha : ((c.getD (s - 1) defaultBlock).header.sequence == s) = true := by
    have h := hwf (s - 1) (by omega)
    rw [h]
    simp only [beq_iff_eq]
    omega
  unfold getHeaderAtSequence headerAt
  rw [find_first_at c _ (s - 1) (by omega) hb ha]
  rfl

theorem takeWhile_eq_take (l : List Block) (p : Block → Bool) (k : Nat)
    (h : ∀ i, i < l.length → (p (l.getD i defaultBlock) = true ↔ i < k)) :
    l.takeWhile p = l.take k := by
  induction l generalizing k with
  | nil => simp
  | cons a t ih =>
    cases k with
    | zero =>
      have h0 := h 0 (by simp)
      simp at h0
      simp [List.takeWhile_cons, h0]
    | succ k =>
      have ha : p a = true := by
        have h0 := h 0 (by simp)
        simp at h0
        exact h0
      have ht : t.takeWhile p = t.take k := by
        apply ih
        intro i hi
        have hh := h (i + 1) (by simpa using Nat.succ_lt_succ hi)
        simpa [Nat.succ_lt_succ_iff] using hh
      simp [List.takeWhile_cons, ha, ht]

theorem iterateTo_wf (c : List Block) (hwf : ChainWF c) (s : Nat)
    (_hs : s ≤ c.length) (final : BlockHeader) (hfs : final.sequence = s) :
    iterateTo c final = c.take s := by
  unfold iterateTo
  apply takeWhile_eq_take
  intro i hi
  have h := hwf i hi
  show decide ((c.getD i defaultBlock).header.sequence ≤ final.sequence) =
      true ↔ i < s
  rw [h, hfs]
  simp only [decide_eq_true_eq]
  omega

theorem take_sequencesOf (c : List Block) (hwf : ChainWF c) (s : Nat)
    (hs : s ≤ c.length) :
    sequencesOf (c.take s) = List.range' 1 s := by
  unfold sequencesOf
  apply List.ext_getElem
  · simp [hs]
  · intro i h1 h2
    simp only [List.getElem_map, List.getElem_take, List.getElem_range']
    have hi : i < c.length := by
      simp at h1
      omega
    have h := hwf i hi
    rw [List.getD_eq_getElem c defaultBlock hi] at h
    omega

/-- C7. With a well-formed nonempty reference chain whose head is at or
past sequence 500, the benchmark start looks up the final header at
sequence 500, replays exactly the contiguous range of blocks from
genesis (sequence 1) through sequence 500 into the freshly initialized
benchmark tree, rehashes it, and reports the benchmark tree root hash
next to the reference pastRoot evaluated at the final header
note-commitment size, as well as the benchmark tree size. -/
theorem C7_benchmark_oracle (M : TreeModel) (chain : List Block)
    (hwf : ChainWF chain) (hne : chain ≠ [])
    (hhead : blocksToBenchmark ≤ (chainHead chain).sequence) :
    getHeaderAtSequence chain blocksToBenchmark =
      some (headerAt chain (blocksToBenchmark - 1)) ∧
    (headerAt chain (blocksToBenchmark - 1)).sequence = blocksToBenchmark ∧
    BenchmarkChain.start M chain =
      (chain.take blocksToBenchmark).map Event.addBlock ++
        [.rehashTree,
         .logBenchHash (M.rootHash (chain.take blocksToBenchmark)),
         .logRealHash (M.pastRoot chain
           (headerAt chain (blocksToBenchmark - 1)).noteCommitmentSize),
         .logTreeSize (M.treeSize (chain.take blocksToBenchmark))] ∧
    sequencesOf (chain.take blocksToBenchmark) =
      List.range' 1 blocksToBenchmark := by
  have h500 : blocksToBenchmark = 500 := rfl
  have hlen : blocksToBenchmark ≤ chain.length := by
    have h := chainHead_sequence chain hwf hne
    omega
  have hget := getHeaderAtSequence_wf chain hwf blocksToBenchmark
    (by omega) hlen
  have hseq : (headerAt chain (blocksToBenchmark - 1)).sequence =
      blocksToBenchmark := by
    have h := hwf (blocksToBenchmark - 1) (by omega)
    unfold headerAt
    omega
  have hiter : iterateTo chain (headerAt chain (blocksToBenchmark - 1)) =
      chain.take blocksToBenchmark :=
    iterateTo_wf chain hwf blocksToBenchmark hlen _ hseq
  refine ⟨hget, hseq, ?_, take_sequencesOf chain hwf blocksToBenchmark hlen⟩
  unfold BenchmarkChain.start
  rw [if_neg (by simp [hne]), if_neg (by omega), hget]
  simp only [hiter]

/-- Witness for C7 at the concrete 500-block chain `witChain` and the
trivial tree model. -/
theorem C7_benchmark_oracle_witness :
    getHeaderAtSequence witChain blocksToBenchmark =
      some (headerAt witChain (blocksToBenchmark - 1)) ∧
    (headerAt witChain (blocksToBenchmark - 1)).sequence = blocksToBenchmark ∧
    BenchmarkChain.start witModel witChain =
      (witChain.take blocksToBenchmark).map Event.addBlock ++
        [.rehashTree,
         .logBenchHash (witModel.rootHash (witChain.take blocksToBenchmark)),
         .logRealHash (witModel.pastRoot witChain
           (headerAt witChain (blocksToBenchmark - 1)).noteCommitmentSize),
         .logTreeSize (witModel.treeSize (witChain.take blocksToBenchmark))] ∧
    sequencesOf (witChain.take blocksToBenchmark) =
      List.range' 1 blocksToBenchmark :=
  C7_benchmark_oracle witModel witChain
    (by
      intro i hi
      rw [List.getD_eq_getElem witChain defaultBlock hi]
      simp [witChain])
    (by
      intro hc
      have h := congrArg List.length hc
      simp [witChain, blocksToBenchmark] at h)
    (by
      have hlen : witChain.length = 500 := by
        simp [witChain, blocksToBenchmark]
      have h500 : blocksToBenchmark = 500 := rfl
      have hh : (chainHead witChain).sequence = 500 := by
        unfold chainHead
        rw [List.getD_eq_getElem witChain defaultBlock (by omega)]
        simp [witChain, blocksToBenchmark, hlen]
      omega)

/-- C10. When the reference chain is empty, or its head is below
sequence 500, the benchmark start logs a message and exits before any
replay: its event trace is exactly the log line followed by the exit,
and contains no addBlock and no rehashTree event. -/
theorem C10_early_exit (M : TreeModel) (chain : List Block)
    (h : chain = [] ∨ (chainHead chain).sequence < blocksToBenchmark) :
    (BenchmarkChain.start M chain =
        [.logMessage "Chain is too corrupt. Delete your DB", .exitWith 0] ∨
      BenchmarkChain.start M chain =
        [.logMessage "Need to sync more blocks for testing.", .exitWith 0]) ∧
    traceMutates (BenchmarkChain.start M chain) = false := by
  rcases h with h | h
  · subst h
    exact ⟨Or.inl rfl, rfl⟩
  · by_cases hc : chain = []
    · subst hc
      exact ⟨Or.inl rfl, rfl⟩
    · have hstart : BenchmarkChain.start M chain =
          [.logMessage "Need to sync more blocks for testing.", .exitWith 0] := by
        unfold BenchmarkChain.start
        rw [if_neg (by simp [hc]), if_pos h]
      exact ⟨Or.inr hstart, by rw [hstart]; rfl⟩

/-- Witness for C10 at the empty chain and the trivial tree model. -/
theorem C10_early_exit_witness :
    (BenchmarkChain.start witModel [] =
        [.logMessage "Chain is too corrupt. Delete your DB", .exitWith 0] ∨
      BenchmarkChain.start witModel [] =
        [.logMessage "Need to sync more blocks for testing.", .exitWith 0]) ∧
    traceMutates (BenchmarkChain.start witModel []) = false :=
  C10_early_exit witModel [] (Or.inl rfl)

end Ironfish
